import Mathlib

/-!
Verification development for the akita HTTP routing framework
(github.com/itchenyi/akita).

The Go sources are embedded shallowly:

* pure helpers become Lean functions on `String` / `List Char`;
* Go slices become `List`s; Go maps become assoc-updates on functions;
* a Go `panic` becomes `Option.none` / an explicit `none` result;
* the variadic `message ...interface{}` of `NewHTTPError` becomes an
  explicit `List` argument.

The router proper (`router.go`: `Router.Add` / `Router.Find` radix tree)
is not among the available sources; its callers, tests and the design
document are.  Definitions in the Router section are therefore marked
`Modelled from the spec:` and follow the specification's description of
the radix tree (prefix compression, static > param > any precedence,
exhaustive backtracking, three lookup outcomes).
-/

namespace Akita

/-- Split a byte string at every occurrence of the separator byte
(Go `strings.Split` with a one-byte separator; separator boundaries
produce empty segments). -/
def splitCh (sep : Char) : List Char → List (List Char)
  | [] => [[]]
  | c :: rest =>
    if c = sep then [] :: splitCh sep rest
    else
      match splitCh sep rest with
      | s :: ss => (c :: s) :: ss
      | [] => [[c]]

/-! ### HTTP status texts (Go `net/http.StatusText`, restricted to the
codes this package mentions; Go returns `""` for an unknown code). -/

def statusText (code : Nat) : String :=
  if code = 401 then "Unauthorized"
  else if code = 403 then "Forbidden"
  else if code = 404 then "Not Found"
  else if code = 405 then "Method Not Allowed"
  else if code = 413 then "Request Entity Too Large"
  else if code = 415 then "Unsupported Media Type"
  else if code = 500 then "Internal Server Error"
  else ""

/-! ### `HTTPError` and `NewHTTPError` (akita.go).

`HTTPError.Message` is a Go `interface{}`; the values that actually flow
through it in the embedded code are strings and the `Map{"message": s}`
wrapper built by `DefaultHTTPErrorHandler`, so it is modelled as `Msg`. -/

inductive Msg : Type where
  | str (s : String) : Msg
  | obj (fields : List (String × String)) : Msg
deriving DecidableEq, Repr

structure HTTPErrorE where
  Code : Nat
  Message : Msg
  Inner : Option String
deriving DecidableEq, Repr

/-- Go `NewHTTPError(code, message ...interface{})`: `Message` defaults to
`http.StatusText(code)` and is overridden by the first variadic value. -/
def newHTTPError (code : Nat) (message : List Msg) : HTTPErrorE :=
  { Code := code
    Message := match message with
      | [] => .str (statusText code)
      | m :: _ => m
    Inner := none }

/-- An `error` value reaching `DefaultHTTPErrorHandler`: either a
`*HTTPError` or some other (plain) error carrying its `Error()` string. -/
inductive AErr : Type where
  | http (e : HTTPErrorE) : AErr
  | plain (s : String) : AErr
deriving DecidableEq, Repr

/-- Go `HTTPError.Error()`: `fmt.Sprintf("code=%d, message=%v", ...)`. -/
def errString : AErr → String
  | .http e => "code=" ++ toString e.Code ++ ", message=" ++
      (match e.Message with
        | .str s => s
        | .obj _ => "map")
  | .plain s => s

def errNotFound : HTTPErrorE := newHTTPError 404 []

def errMethodNotAllowed : HTTPErrorE := newHTTPError 405 []

/-! ### Context (context.go). -/

/-- A handler reference stored in a context (`HandlerFunc` values are
only compared against the sentinel `NotFoundHandler` here). -/
inductive HRef : Type where
  | notFound : HRef
  | methodNotAllowed : HRef
  | user (id : Nat) : HRef
deriving DecidableEq, Repr

/-- The per-request `context` struct: the fields touched by `Param`,
`ParamValues`, `SetParamNames`, `Reset`.  `request` is an opaque
reference; `query` and `store` are `nil`-able (`none` = Go `nil`). -/
structure Ctx where
  request : Nat
  query : Option (List (String × String))
  handler : HRef
  store : Option (List (String × String))
  path : String
  pnames : List String
  pvalues : List String
deriving DecidableEq, Repr

/-- Sentinel `NotFoundHandler = func(c Context) error { return ErrNotFound }`. -/
def notFoundHandlerF (_ : Ctx) : AErr := .http errNotFound

/-- Sentinel `MethodNotAllowedHandler = func(c Context) error { return ErrMethodNotAllowed }`. -/
def methodNotAllowedHandlerF (_ : Ctx) : AErr := .http errMethodNotAllowed

/-- Go `NewContext`: fresh context with `pvalues: make([]string, *a.maxParam)`
and `handler: NotFoundHandler` (the request argument is the opaque id). -/
def newContext (r : Nat) (maxParam : Nat) : Ctx :=
  { request := r
    query := none
    handler := .notFound
    store := some []
    path := ""
    pnames := []
    pvalues := List.replicate maxParam "" }

/-- Go `context.SetParamNames(names ...string)`: `ctx.pnames = names`. -/
def setParamNames (names : List String) (c : Ctx) : Ctx :=
  { c with pnames := names }

/-- The loop body of `context.Param`: walk `pnames` with an index `i`
into the fixed `pvalues`; a name matches if it equals `name`, or if one
of its comma-separated components (`strings.Split(n, ",")`) equals
`name`; indices at or beyond `len(pvalues)` are skipped. -/
def paramAux (pnames : List String) (pvalues : List String) (name : String)
    (i : Nat) : String :=
  match pnames with
  | [] => ""
  | n :: ns =>
    if i < pvalues.length then
      if n == name then pvalues.getD i ""
      else if ((splitCh ',' n.data).map String.mk).contains name then pvalues.getD i ""
      else paramAux ns pvalues name (i + 1)
    else paramAux ns pvalues name (i + 1)

/-- Go `context.Param(name)`. -/
def ctxParam (c : Ctx) (name : String) : String :=
  paramAux c.pnames c.pvalues name 0

/-- Go `context.ParamValues()` returns `ctx.pvalues[:len(ctx.pnames)]`; the
slice expression panics (`none`) when `len(pnames)` exceeds the capacity
of `pvalues` (equal to its length: `make([]string, maxParam)`). -/
def paramValues (c : Ctx) : Option (List String) :=
  if c.pnames.length ≤ c.pvalues.length then
    some (c.pvalues.take c.pnames.length)
  else none

/-- Go `context.Reset(r, w)`: clears `query`, `handler`, `store`, `path`,
`pnames`; `pvalues` is deliberately NOT reset (it must keep length
`maxParam` at all times). -/
def ctxReset (r : Nat) (c : Ctx) : Ctx :=
  { c with
    request := r
    query := none
    handler := .notFound
    store := none
    path := ""
    pnames := [] }

/-! ### `DefaultHTTPErrorHandler` (akita.go).

Its observable outcome is the `(code, message)` pair passed to the
response (`ctx.JSON(code, msg)`), or `none` when the Go code panics.
The source reads

    if he, ok := err.(*HTTPError); ok {
        code = he.Code
        msg = he.Message
    } else if a.Debug {
        msg = err.Error()
        if he.Inner != nil { msg = fmt.Sprintf("%v, %v", err, he.Inner) }
    } else {
        msg = http.StatusText(code)
    }
    if _, ok := msg.(string); ok { msg = Map{"message": msg} }

In the `a.Debug` branch the type assertion has failed, so `he` is the
nil `*HTTPError`; `he.Inner` dereferences that nil pointer and panics,
modelled as `none`. -/

def wrapMsg (m : Msg) : Msg :=
  match m with
  | .str s => .obj [("message", s)]
  | m => m

def defaultHTTPErrorHandler (debug : Bool) (err : AErr) : Option (Nat × Msg) :=
  match err with
  | .http he => some (he.Code, wrapMsg he.Message)
  | .plain _ =>
    if debug then
      none
    else some (500, wrapMsg (.str (statusText 500)))

/-! ### Route records and the `routes` map (akita.go `Akita.Add`,
`Akita.Any`, `Akita.Reverse`).

`a.router.routes` is a Go map `map[string]*Route`; it is modelled as a
function `String → Option Route` with pointwise update (`routes[k] = r`).
The display name computed by `handlerName(handler)` (reflection) enters
the model as the already-computed string `name`. -/

structure Route where
  Method : String
  Path : String
  Name : String
deriving DecidableEq, Repr

def RMap : Type := String → Option Route

/-- Go `a.router.routes[method+path] = r`. -/
def rmapSet (k : String) (r : Route) (m : RMap) : RMap :=
  fun x => if x = k then some r else m x

/-- Go `Akita.Add(method, path, handler, ...)`: builds the route record
`{Method: method, Path: path, Name: handlerName(handler)}`, stores it
under key `method+path`, and returns it. -/
def akitaAddRec (method path name : String) (m : RMap) : Route × RMap :=
  let r : Route := { Method := method, Path := path, Name := name }
  (r, rmapSet (method ++ path) r m)

/-- The package-level `methods` array, in declaration order. -/
def methodsList : List String :=
  ["CONNECT", "DELETE", "GET", "HEAD", "OPTIONS", "PATCH", "POST", "PUT", "TRACE"]

/-- Go `Akita.Any(path, handler, ...)`: one `Add` per element of `methods`,
collecting the returned records in order. -/
def akitaAnyRec (path name : String) (m : RMap) : List Route × RMap :=
  methodsList.foldl
    (fun acc mth =>
      let s := akitaAddRec mth path name acc.2
      (acc.1 ++ [s.1], s.2))
    ([], m)

/-! ### `Akita.Reverse` (akita.go).

The byte loop over `r.Path`: on a `':'` while formatted parameters
remain, the inner loop skips to the next `'/'` (or the end), the next
parameter is written, and the terminating byte (if any) is written;
every other byte is copied.  Parameters are modelled as their `%v`
renderings. -/

def revPath (cs : List Char) (ps : List String) : List Char :=
  match cs with
  | [] => []
  | c :: rest =>
    if c = ':' ∧ ps ≠ [] then
      (ps.headD "").data ++
        (if (rest.dropWhile (fun d => d ≠ '/')).isEmpty then []
         else (rest.dropWhile (fun d => d ≠ '/')).headD ' ' ::
           revPath (rest.dropWhile (fun d => d ≠ '/')).tail ps.tail)
    else c :: revPath rest ps
termination_by cs.length
decreasing_by
  · have hle : (rest.dropWhile (fun d => d ≠ '/')).length ≤ rest.length :=
      (List.dropWhile_suffix _).length_le
    simp only [List.length_tail, List.length_cons]
    omega
  · simp

/-- Go `Akita.Reverse(name, params...)`: scan the route records for the
first one whose `Name` equals `name` and rewrite its `Path`; with no
matching record the buffer stays empty.  (Go iterates a map in
unspecified order; the iteration sequence is the list `routes`.) -/
def akitaReverse (routes : List Route) (name : String) (ps : List String) : String :=
  match routes.find? (fun r => r.Name == name) with
  | some r => String.mk (revPath r.Path.data ps)
  | none => ""

/-! ### Router (spec-modelled).

Modelled from the spec: `router.go` (`Router`, `Router.Add`, `Router.Find`)
is not among the available sources.  The definitions below follow the
specification: an edge-compressed radix tree whose nodes carry a static
`pfx`, a `kind` (static / param / any), accumulated parameter names, and
a per-method handler table; insertion splits nodes at prefix divergence;
lookup tries, at every branch point, the static child keyed by the next
byte, then the param child, then the any child, backtracking exhaustively
on any deeper failure (including the requested method being absent at the
node finally reached); a param match captures up to the next `/`, an any
match captures the whole remaining input; the three outcomes matched /
method-not-allowed / not-found are distinguishable. -/

inductive NKind : Type where
  | sta : NKind
  | par : NKind
  | any : NKind
deriving DecidableEq, BEq, Repr

inductive Node : Type where
  | mk (pfx : List Char) (kind : NKind) (pname : String)
      (children : List Node) (handlers : List (String × Nat)) : Node

def Node.pfx : Node → List Char
  | .mk p _ _ _ _ => p

def Node.kind : Node → NKind
  | .mk _ k _ _ _ => k

def Node.pname : Node → String
  | .mk _ _ n _ _ => n

def Node.children : Node → List Node
  | .mk _ _ _ c _ => c

def Node.handlers : Node → List (String × Nat)
  | .mk _ _ _ _ h => h

def Node.withPfx : Node → List Char → Node
  | .mk _ k n c h, p => .mk p k n c h

/-- Per-method handler table update (re-registration overwrites). -/
def hset (method : String) (h : Nat) : List (String × Nat) → List (String × Nat)
  | [] => [(method, h)]
  | (m, x) :: rest =>
    if m = method then (m, h) :: rest else (m, x) :: hset method h rest

/-- Per-method handler table lookup. -/
def hget (method : String) : List (String × Nat) → Option Nat
  | [] => none
  | (m, x) :: rest => if m = method then some x else hget method rest

/-- Longest common prefix of two byte strings. -/
def lcp : List Char → List Char → List Char
  | a :: as, b :: bs => if a = b then a :: lcp as bs else []
  | _, _ => []

/-- A registered pattern, tokenised: literal runs, `:name` segments
(up to the next `/`), and the terminal `*` wildcard (whose captured
value is exposed under the name `*`). -/
inductive Tok : Type where
  | lit (s : List Char) : Tok
  | par (name : String) : Tok
  | star (name : String) : Tok
deriving DecidableEq, Repr

def parseToksF : Nat → List Char → List Tok
  | 0, _ => []
  | _, [] => []
  | fuel + 1, ':' :: rest =>
    .par (String.mk (rest.takeWhile (fun c => c ≠ '/'))) ::
      parseToksF fuel (rest.dropWhile (fun c => c ≠ '/'))
  | _ + 1, '*' :: _ => [.star "*"]
  | fuel + 1, cs =>
    .lit (cs.takeWhile (fun c => c ≠ ':' ∧ c ≠ '*')) ::
      parseToksF fuel (cs.dropWhile (fun c => c ≠ ':' ∧ c ≠ '*'))

def parseToks (p : List Char) : List Tok :=
  parseToksF (p.length + 1) p

/-- Fresh chain of nodes for a token list (no existing node to merge
with); the handler is recorded at the terminal node. -/
def mkChain (mh : String × Nat) : List Tok → Node
  | [] => .mk [] .sta "" [] [mh]
  | .lit s :: rest =>
    if rest.isEmpty then .mk s .sta "" [] [mh]
    else .mk s .sta "" [mkChain mh rest] []
  | .par n :: rest =>
    if rest.isEmpty then .mk [] .par n [] [mh]
    else .mk [] .par n [mkChain mh rest] []
  | .star n :: _ => .mk [] .any n [] [mh]

/-- Extract the first child satisfying `p`, keeping its position. -/
def extractFirst (p : Node → Bool) : List Node → Option (List Node × Node × List Node)
  | [] => none
  | c :: cs =>
    if p c then some ([], c, cs)
    else (extractFirst p cs).map (fun bca => (c :: bca.1, bca.2.1, bca.2.2))

def isStaticWithByte (b : Char) (c : Node) : Bool :=
  c.kind == .sta && c.pfx.headD ' ' == b

/-- Insertion below a node whose own prefix is already consumed: walk
the static child sharing the next byte (splitting it at the divergence
point so the radix property is preserved), or the unique param / any
child; record the handler when the pattern is exhausted.  (The spec's
fatal error for a divergent param name at an existing position is not
reachable from the registrations used here; the existing name is kept.) -/
def insertAux (fuel : Nat) (n : Node) (toks : List Tok) (mh : String × Nat) : Node :=
  match fuel with
  | 0 => n
  | fuel + 1 =>
    match n, toks with
    | .mk p k pn ch hs, [] => .mk p k pn ch (hset mh.1 mh.2 hs)
    | .mk p k pn ch hs, .lit s :: rest =>
      match extractFirst (isStaticWithByte (s.headD ' ')) ch with
      | none => .mk p k pn (ch ++ [mkChain mh (.lit s :: rest)]) hs
      | some (b, c, a) =>
        let l := lcp s c.pfx
        let rest' := if s.length = l.length then rest
          else Tok.lit (s.drop l.length) :: rest
        let c' :=
          if l.length = c.pfx.length then insertAux fuel c rest' mh
          else insertAux fuel
            (Node.mk l .sta "" [c.withPfx (c.pfx.drop l.length)] []) rest' mh
        .mk p k pn (b ++ c' :: a) hs
    | .mk p k pn ch hs, .par _ :: rest =>
      match extractFirst (fun c => c.kind == .par) ch with
      | none => .mk p k pn (ch ++ [mkChain mh toks]) hs
      | some (b, c, a) => .mk p k pn (b ++ insertAux fuel c rest mh :: a) hs
    | .mk p k pn ch hs, .star _ :: _ =>
      match extractFirst (fun c => c.kind == .any) ch with
      | none => .mk p k pn (ch ++ [mkChain mh toks]) hs
      | some (b, c, a) => .mk p k pn (b ++ insertAux fuel c [] mh :: a) hs

/-- What this node consumes from the input: its static prefix by exact
byte comparison, one segment (up to `/` or the end) for a param node, or
the entire remaining input for an any node; `none` = no match here. -/
def consume (n : Node) (input : List Char) : Option (List (String × String) × List Char) :=
  match n.kind with
  | .sta =>
    if n.pfx.isPrefixOf input then some ([], input.drop n.pfx.length) else none
  | .par =>
    let v := input.takeWhile (fun c => c ≠ '/')
    some ([(n.pname, String.mk v)], input.drop v.length)
  | .any => some ([(n.pname, String.mk input)], [])

/-- Lookup: consume this node's content; if input remains, try the
static child keyed by the next byte, then the param child, then the any
child, in that strict order, each alternative attempted only after the
previous one failed anywhere deeper (exhaustive backtracking); with the
input exhausted the requested method must have a handler at this node. -/
def findAux (fuel : Nat) (n : Node) (input : List Char) (method : String) :
    Option (Nat × List (String × String)) :=
  match fuel with
  | 0 => none
  | fuel + 1 =>
    match consume n input with
    | none => none
    | some (bound, rest) =>
      if rest = [] then
        (hget method n.handlers).map (fun h => (h, bound))
      else
        let deeper := fun r : Nat × List (String × String) => (r.1, bound ++ r.2)
        match (n.children.find? (isStaticWithByte (rest.headD ' '))).bind
            (fun c => findAux fuel c rest method) with
        | some r => some (deeper r)
        | none =>
          match (n.children.find? (fun c => c.kind == .par)).bind
              (fun c => findAux fuel c rest method) with
          | some r => some (deeper r)
          | none =>
            match (n.children.find? (fun c => c.kind == .any)).bind
                (fun c => findAux fuel c rest method) with
            | some r => some (deeper r)
            | none => none

/-- Companion walk ignoring the method: does some registered path (a
node with a nonempty handler table) match the whole input?  Distinguishes
method-not-allowed from not-found. -/
def pathAux (fuel : Nat) (n : Node) (input : List Char) : Bool :=
  match fuel with
  | 0 => false
  | fuel + 1 =>
    match consume n input with
    | none => false
    | some (_, rest) =>
      if rest = [] then !n.handlers.isEmpty
      else
        ((n.children.find? (isStaticWithByte (rest.headD ' '))).elim false
          (fun c => pathAux fuel c rest)) ||
        ((n.children.find? (fun c => c.kind == .par)).elim false
          (fun c => pathAux fuel c rest)) ||
        ((n.children.find? (fun c => c.kind == .any)).elim false
          (fun c => pathAux fuel c rest))

def emptyRoot : Node := .mk [] .sta "" [] []

/-- Spec-modelled `Router.Add(method, path, h)`. -/
def routerAdd (method path : String) (h : Nat) (root : Node) : Node :=
  insertAux (path.length + 32) root (parseToks path.data) (method, h)

/-- The three distinguishable outcomes of `Router.Find`. -/
inductive LookupRes : Type where
  | found (h : Nat) (params : List (String × String)) : LookupRes
  | methodNotAllowed : LookupRes
  | notFound : LookupRes
deriving DecidableEq, Repr

/-- Spec-modelled `Router.Find(method, path, ctx)`: a handler plus the
positionally bound parameters, or method-not-allowed when some route
matches the path but not the method, or not-found. -/
def routerFind (method path : String) (root : Node) : LookupRes :=
  match findAux (2 * path.length + 64) root path.data method with
  | some (h, ps) => .found h ps
  | none =>
    if pathAux (2 * path.length + 64) root path.data then .methodNotAllowed
    else .notFound

/-! ### `static` and path cleaning (akita.go `static`, Go stdlib
`path.Clean` / `filepath.Join` on slash-separated paths).

`path.Clean` is embedded at segment granularity: the input is split on
`/`; empty and `.` segments are dropped; `..` pops the last retained
segment, except that at the root it is discarded (rooted path) or kept
literally (relative path); the retained segments are rejoined.  This is
exactly the observable behaviour of the byte-level Go loop.
`filepath.Join(a, b)` (unix) drops empty parts and cleans
`a + "/" + b`. -/

def dotSeg : List Char := ['.']

def ddSeg : List Char := ['.', '.']

/-- Split a byte string on `/` (boundaries produce empty segments). -/
def splitSlash : List Char → List (List Char) :=
  splitCh '/'

/-- One `Clean` step: the retained-segment stack (head = most recent)
updated by the next segment. -/
def stepSeg (rooted : Bool) (st : List (List Char)) (sg : List Char) : List (List Char) :=
  if sg = [] ∨ sg = dotSeg then st
  else if sg = ddSeg then
    match st with
    | [] => if rooted then [] else [ddSeg]
    | top :: rest => if top = ddSeg then sg :: st else rest
  else sg :: st

def cleanSegs (rooted : Bool) (segs : List (List Char)) : List (List Char) :=
  segs.foldl (stepSeg rooted) []

/-- Intercalate `/`. -/
def joinSegs : List (List Char) → List Char
  | [] => []
  | [s] => s
  | s :: ss => s ++ '/' :: joinSegs ss

/-- Rebuild the cleaned path from the segment stack (Go returns `"."`
for an emptied relative path and keeps the leading `/` of a rooted one). -/
def renderClean (rooted : Bool) (st : List (List Char)) : List Char :=
  let body := joinSegs st.reverse
  if rooted then '/' :: body
  else if body = [] then dotSeg else body

def isRooted (s : List Char) : Bool := s.headD ' ' == '/'

/-- Go `path.Clean`. -/
def goClean (s : List Char) : List Char :=
  if s = [] then dotSeg
  else renderClean (isRooted s) (cleanSegs (isRooted s) (splitSlash s))

/-- Go `filepath.Join(a, b)` on a unix separator. -/
def goJoin (a b : List Char) : List Char :=
  if a = [] ∧ b = [] then []
  else if a = [] then goClean b
  else if b = [] then goClean a
  else goClean (a ++ '/' :: b)

/-- The file name the `static(i, prefix, root)` handler passes to
`c.File`: `filepath.Join(root, path.Clean("/"+p))`, where `p` is the
unescaped `*` parameter value. -/
def staticFileName (root p : List Char) : List Char :=
  goJoin root (goClean ('/' :: p))

/-! ## Theorems for the specification claims -/

/-- C1: `Router.Find` evaluates alternatives in the strict order
static > param > any at every branch point, with exhaustive backtracking
across ancestor branch points: with `/users/new` and `/users/:id` both
registered, `/users/new` resolves to the static handler and `/users/42`
to the param handler with `id = "42"`; a static segment beats a param
at an interior position (`/a/x/c` with `/a/:b/c` and `/a/x/:d`
registered resolves via the static `x`); a dead end deeper in the walk
(a prefix mismatch, or the requested method absent at the node finally
reached) unwinds to the next-priority alternative at the ancestor branch
point; the `any` child is tried last. -/
theorem find_precedence_and_backtracking :
    routerFind "GET" "/users/new"
      (routerAdd "GET" "/users/:id" 2 (routerAdd "GET" "/users/new" 1 emptyRoot)) =
      .found 1 [] ∧
    routerFind "GET" "/users/42"
      (routerAdd "GET" "/users/:id" 2 (routerAdd "GET" "/users/new" 1 emptyRoot)) =
      .found 2 [("id", "42")] ∧
    routerFind "GET" "/a/x/c"
      (routerAdd "GET" "/a/x/:d" 4 (routerAdd "GET" "/a/:b/c" 3 emptyRoot)) =
      .found 4 [("d", "c")] ∧
    routerFind "GET" "/a/x/c"
      (routerAdd "GET" "/a/:b/c" 3 (routerAdd "GET" "/a/x/d" 5 emptyRoot)) =
      .found 3 [("b", "x")] ∧
    routerFind "GET" "/u/s"
      (routerAdd "GET" "/u/:v" 7 (routerAdd "POST" "/u/s" 6 emptyRoot)) =
      .found 7 [("v", "s")] ∧
    routerFind "GET" "/f/q/z"
      (routerAdd "GET" "/f/*" 9 (routerAdd "GET" "/f/:x/y" 8 emptyRoot)) =
      .found 9 [("*", "q/z")] := by
  decide

/-- C2: method-not-allowed and not-found are distinguishable return
states; the sentinel handlers return the distinct HTTPError values
ErrNotFound (Code 404) and ErrMethodNotAllowed (Code 405), each with
Message the standard HTTP status text for its code as set by
NewHTTPError. -/
theorem sentinels_distinguish_405_from_404 :
    (∀ c : Ctx, notFoundHandlerF c = .http errNotFound) ∧
    (∀ c : Ctx, methodNotAllowedHandlerF c = .http errMethodNotAllowed) ∧
    errNotFound.Code = 404 ∧
    errMethodNotAllowed.Code = 405 ∧
    errNotFound.Message = .str (statusText 404) ∧
    errMethodNotAllowed.Message = .str (statusText 405) ∧
    statusText 404 = "Not Found" ∧
    statusText 405 = "Method Not Allowed" ∧
    errNotFound ≠ errMethodNotAllowed ∧
    routerFind "POST" "/x" (routerAdd "GET" "/x" 1 emptyRoot) = .methodNotAllowed ∧
    routerFind "GET" "/y" (routerAdd "GET" "/x" 1 emptyRoot) = .notFound ∧
    LookupRes.methodNotAllowed ≠ LookupRes.notFound := by
  exact ⟨fun c => rfl, fun c => rfl, by decide⟩

/-- C3: registering the same method and path twice succeeds and is
last-write-wins: the route-record map after the two `Add` calls equals
the map after the second call alone, exactly one record is stored under
key `method+path` and it describes the last registration; the trie
handler is overwritten the same way. -/
theorem add_same_method_path_overwrites :
    (∀ (method path n1 n2 : String) (m : RMap),
      (akitaAddRec method path n2 (akitaAddRec method path n1 m).2).2 =
        (akitaAddRec method path n2 m).2) ∧
    (∀ (method path n : String) (m : RMap),
      (akitaAddRec method path n m).2 (method ++ path) =
        some { Method := method, Path := path, Name := n }) ∧
    routerFind "GET" "/p" (routerAdd "GET" "/p" 2 (routerAdd "GET" "/p" 1 emptyRoot)) =
      .found 2 [] := by
  refine ⟨?_, ?_, by decide⟩
  · intro method path n1 n2 m
    funext x
    simp only [akitaAddRec, rmapSet]
    by_cases hx : x = method ++ path <;> simp [hx]
  · intro method path n m
    simp [akitaAddRec, rmapSet]

/-- C6: `Akita.Any` registers the route for exactly the nine methods of
the closed enumeration, one `Add` per method in declaration order, and
returns the nine route records, each carrying the path and its method. -/
theorem any_registers_all_nine_methods (p n : String) (m : RMap) :
    (akitaAnyRec p n m).1 =
      methodsList.map (fun mth => { Method := mth, Path := p, Name := n }) ∧
    methodsList =
      ["CONNECT", "DELETE", "GET", "HEAD", "OPTIONS", "PATCH", "POST", "PUT", "TRACE"] ∧
    (akitaAnyRec p n m).1.length = 9 := by
  exact ⟨rfl, rfl, rfl⟩

/-- C7: `context.Reset` clears the per-request fields (query, store,
path, pnames; handler back to NotFoundHandler) while leaving the
pre-sized `pvalues` slice untouched in length and contents. -/
theorem reset_preserves_pvalues (r : Nat) (c : Ctx) :
    (ctxReset r c).pvalues = c.pvalues ∧
    (ctxReset r c).query = none ∧
    (ctxReset r c).store = none ∧
    (ctxReset r c).path = "" ∧
    (ctxReset r c).pnames = [] ∧
    (ctxReset r c).handler = .notFound := by
  exact ⟨rfl, rfl, rfl, rfl, rfl, rfl⟩

/-- C8: contrary to the claim, `DefaultHTTPErrorHandler` is not total:
with Debug enabled and an error that is not a `*HTTPError`, the code
reads `he.Inner` through the nil `*HTTPError` obtained from the failed
type assertion and panics (here: `none`) instead of completing with the
message derived from `err.Error()`. -/
theorem defaultHTTPErrorHandler_panics_in_debug :
    defaultHTTPErrorHandler true (.plain "error") = none ∧
    defaultHTTPErrorHandler false (.plain "error") =
      some (500, .obj [("message", statusText 500)]) ∧
    (∀ he : HTTPErrorE, ∀ debug : Bool,
      defaultHTTPErrorHandler debug (.http he) = some (he.Code, wrapMsg he.Message)) := by
  exact ⟨rfl, rfl, fun he debug => rfl⟩

/-- C9: `ParamValues` returns the first `len(pnames)` elements of
`pvalues` under the genuine precondition `len(pnames) ≤ len(pvalues)`:
`NewContext` fixes `pvalues` at length `maxParam`, `SetParamNames` does
not grow `pvalues`, and with more names than `pvalues` holds the slice
expression `pvalues[:len(pnames)]` is out of range and panics (`none`). -/
theorem paramValues_is_pvalues_truncated :
    (∀ c : Ctx, c.pnames.length ≤ c.pvalues.length →
      paramValues c = some (c.pvalues.take c.pnames.length)) ∧
    (∀ r maxParam, (newContext r maxParam).pvalues.length = maxParam) ∧
    (∀ names c, (setParamNames names c).pvalues = c.pvalues) ∧
    (∀ r maxParam names, maxParam < names.length →
      paramValues (setParamNames names (newContext r maxParam)) = none) := by
  refine ⟨?_, ?_, ?_, ?_⟩
  · intro c h
    simp [paramValues, h]
  · intro r mp
    simp [newContext]
  · intro names c
    rfl
  · intro r mp names h
    simp only [paramValues, setParamNames, newContext, List.length_replicate]
    rw [if_neg]
    omega

/-- C9 (witness): the truncation and the panic both realised at concrete
inputs. -/
theorem paramValues_is_pvalues_truncated_witness :
    paramValues
      { request := 0, query := none, handler := .notFound, store := none,
        path := "", pnames := ["a"], pvalues := ["x", "y"] } = some ["x"] ∧
    paramValues (setParamNames ["a", "b"] (newContext 0 1)) = none :=
  ⟨paramValues_is_pvalues_truncated.1 _ (by decide),
   paramValues_is_pvalues_truncated.2.2.2 0 1 ["a", "b"] (by decide)⟩

/-- Claim-side matcher for C4 (from the claim's words): a recorded name
matches when it equals `name` or when `name` equals one of its
comma-separated components. -/
def specMatches (n name : String) : Bool :=
  n == name || ((splitCh ',' n.data).map String.mk).contains name

lemma paramAux_eq_of_least (pvalues : List String) (name : String) :
    ∀ (pnames : List String) (k i : Nat),
      i < pnames.length → k + i < pvalues.length →
      specMatches (pnames.getD i "") name = true →
      (∀ j, j < i → specMatches (pnames.getD j "") name = false) →
      paramAux pnames pvalues name k = pvalues.getD (k + i) "" := by
  intro pnames
  induction pnames with
  | nil => intro k i h1; simp at h1
  | cons n ns ih =>
    intro k i h1 h2 h3 h4
    by_cases hi : i = 0
    · subst hi
      have hk : k < pvalues.length := by omega
      simp only [List.getD_cons_zero] at h3
      by_cases hb : (n == name) = true
      · simp only [paramAux]
        rw [if_pos hk, if_pos hb, Nat.add_zero]
      · have hc : ((splitCh ',' n.data).map String.mk).contains name = true := by
          have := h3
          simp only [specMatches, Bool.or_eq_true] at this
          exact this.resolve_left hb
        simp only [paramAux]
        rw [if_pos hk, if_neg hb, if_pos hc, Nat.add_zero]
    · obtain ⟨i', rfl⟩ : ∃ i', i = i' + 1 := ⟨i - 1, by omega⟩
      have h0 : specMatches n name = false := by simpa using h4 0 (by omega)
      simp only [specMatches, Bool.or_eq_false_iff] at h0
      have hk : k < pvalues.length := by omega
      have hrec := ih (k + 1) i' (by simpa using h1) (by omega)
        (by simpa using h3) (fun j hj => by simpa using h4 (j + 1) (by omega))
      simp only [paramAux]
      rw [if_pos hk, if_neg (by simp [h0.1]), if_neg (by rw [h0.2]; simp), hrec]
      congr 1
      omega

lemma paramAux_eq_empty (pvalues : List String) (name : String) :
    ∀ (pnames : List String) (k : Nat),
      (∀ i, i < pnames.length → k + i < pvalues.length →
        specMatches (pnames.getD i "") name = false) →
      paramAux pnames pvalues name k = "" := by
  intro pnames
  induction pnames with
  | nil => intro k _; rfl
  | cons n ns ih =>
    intro k h
    have hrec := ih (k + 1)
      (fun i hi hlen => by simpa using h (i + 1) (by simpa using hi) (by omega))
    by_cases hk : k < pvalues.length
    · have h0 : specMatches n name = false := by
        simpa using h 0 (by simp) (by omega)
      simp only [specMatches, Bool.or_eq_false_iff] at h0
      simp only [paramAux]
      rw [if_pos hk, if_neg (by simp [h0.1]), if_neg (by rw [h0.2]; simp), hrec]
    · simp only [paramAux]
      rw [if_neg hk, hrec]

/-- C4: `Param(name)` returns `pvalues[i]` for the smallest index `i`
with `i < len(pvalues)` whose recorded name equals `name` or has `name`
among its comma-separated components, and the empty string when no such
index exists — parameter values are bound positionally, in the order the
names were recorded. -/
theorem param_positional_binding (c : Ctx) (name : String) :
    (∀ i, i < c.pnames.length → i < c.pvalues.length →
      specMatches (c.pnames.getD i "") name = true →
      (∀ j, j < i → specMatches (c.pnames.getD j "") name = false) →
      ctxParam c name = c.pvalues.getD i "") ∧
    ((∀ i, i < c.pnames.length → i < c.pvalues.length →
        specMatches (c.pnames.getD i "") name = false) →
      ctxParam c name = "") := by
  constructor
  · intro i h1 h2 h3 h4
    have hmain := paramAux_eq_of_least c.pvalues name c.pnames 0 i h1 (by omega) h3 h4
    simpa [ctxParam] using hmain
  · intro h
    exact paramAux_eq_empty c.pvalues name c.pnames 0 (fun i hi hlen => h i hi (by omega))

/-- C4 (witness): an alias name hit at the first position, and a miss. -/
theorem param_positional_binding_witness :
    ctxParam
      { request := 0, query := none, handler := .notFound, store := none,
        path := "", pnames := ["a,b", "c"], pvalues := ["1", "2"] } "b" = "1" ∧
    ctxParam
      { request := 0, query := none, handler := .notFound, store := none,
        path := "", pnames := ["a"], pvalues := ["1"] } "z" = "" :=
  ⟨(param_positional_binding _ "b").1 0 (by decide) (by decide) (by decide)
      (fun j hj => absurd hj (Nat.not_lt_zero j)),
   (param_positional_binding _ "z").2
      (fun i hi _ => by
        have hi0 : i = 0 := by simpa using Nat.lt_one_iff.mp (by simpa using hi)
        subst hi0
        decide)⟩

/-! ### C5: `Reverse` rewrites the stored pattern.

Claim-side pattern representation: a route path is a sequence of literal
chunks (containing no `:`) and `:name` segments (names without `/` or
`:`, each followed by `/` or the end of the pattern) — the shape of
every registrable route pattern. -/

inductive RTok : Type where
  | lit (s : List Char) : RTok
  | par (nm : List Char) : RTok
deriving DecidableEq, Repr

def renderRTok : List RTok → List Char
  | [] => []
  | .lit s :: rest => s ++ renderRTok rest
  | .par nm :: rest => ':' :: (nm ++ renderRTok rest)

/-- The claim's expected output: the i-th `:name` replaced by the i-th
supplied value while values remain, every other byte preserved. -/
def renderRTokSub : List RTok → List String → List Char
  | [], _ => []
  | .lit s :: rest, ps => s ++ renderRTokSub rest ps
  | .par nm :: rest, ps =>
    match ps with
    | [] => ':' :: (nm ++ renderRTokSub rest [])
    | v :: ps' => v.data ++ renderRTokSub rest ps'

def nextAfterPar : List RTok → Prop
  | [] => True
  | .lit s :: _ => s.headD ' ' = '/'
  | _ => False

def wfRTok : List RTok → Prop
  | [] => True
  | .lit s :: rest => s ≠ [] ∧ (∀ x ∈ s, x ≠ ':') ∧ wfRTok rest
  | .par nm :: rest =>
    (∀ x ∈ nm, x ≠ '/') ∧ (∀ x ∈ nm, x ≠ ':') ∧ nextAfterPar rest ∧ wfRTok rest

lemma dropWhile_ne_slash_append :
    ∀ (a b : List Char), (∀ x ∈ a, x ≠ '/') →
      (a ++ b).dropWhile (fun d => d ≠ '/') = b.dropWhile (fun d => d ≠ '/') := by
  intro a
  induction a with
  | nil => intro b _; rfl
  | cons c a' ih =>
    intro b ha
    have hc : c ≠ '/' := ha c (by simp)
    have hdec : decide (c ≠ '/') = true := by simpa using hc
    simp only [List.cons_append, List.dropWhile]
    rw [hdec]
    exact ih b (fun x hx => ha x (List.mem_cons_of_mem _ hx))

lemma revPath_copy :
    ∀ (s t : List Char) (ps : List String), (∀ x ∈ s, x ≠ ':') →
      revPath (s ++ t) ps = s ++ revPath t ps := by
  intro s
  induction s with
  | nil => intro t ps _; rfl
  | cons c s' ih =>
    intro t ps hs
    have hc : c ≠ ':' := hs c (by simp)
    simp only [List.cons_append]
    simp only [revPath]
    rw [if_neg (by simp [hc])]
    rw [ih t ps (fun x hx => hs x (List.mem_cons_of_mem _ hx))]

lemma revPath_render :
    ∀ (toks : List RTok) (ps : List String), wfRTok toks →
      revPath (renderRTok toks) ps = renderRTokSub toks ps := by
  intro toks
  induction toks with
  | nil => intro ps _; simp only [renderRTok, renderRTokSub, revPath]
  | cons t rest ih =>
    intro ps hwf
    cases t with
    | lit s =>
      simp only [wfRTok] at hwf
      obtain ⟨-, h2, h3⟩ := hwf
      simp only [renderRTok, renderRTokSub]
      rw [revPath_copy s _ ps h2, ih ps h3]
    | par nm =>
      have hwf' := hwf
      simp only [wfRTok] at hwf'
      obtain ⟨hn1, hn2, hnext, hrest⟩ := hwf'
      cases ps with
      | nil =>
        simp only [renderRTok, renderRTokSub]
        simp only [revPath]
        rw [if_neg (by simp)]
        rw [revPath_copy nm _ [] hn2, ih [] hrest]
      | cons v ps' =>
        simp only [renderRTok, renderRTokSub]
        simp only [revPath]
        rw [if_pos (by simp)]
        cases rest with
        | nil =>
          have hd : (nm ++ renderRTok []).dropWhile (fun d => d ≠ '/') = [] := by
            rw [List.dropWhile_eq_nil_iff]
            intro x hx
            simp only [renderRTok, List.append_nil] at hx
            simpa using hn1 x hx
          rw [hd]
          simp [renderRTokSub]
        | cons t2 rest' =>
          cases t2 with
          | par nm2 => exact absurd hnext (by simp [nextAfterPar])
          | lit s2 =>
            have hparts := hrest
            simp only [wfRTok] at hparts
            obtain ⟨hs2ne, hs2c, hrest'⟩ := hparts
            simp only [nextAfterPar] at hnext
            obtain ⟨s2', rfl⟩ : ∃ s2', s2 = '/' :: s2' := by
              cases s2 with
              | nil => exact absurd rfl hs2ne
              | cons a s2' => exact ⟨s2', by simpa using congrArg (· :: s2') hnext⟩
            have hIH := ih ps' hrest
            simp only [renderRTok, renderRTokSub, List.cons_append] at hIH
            simp only [revPath] at hIH
            have hIH' : revPath (s2' ++ renderRTok rest') ps' =
                s2' ++ renderRTokSub rest' ps' := by
              simpa using hIH
            have hd : (nm ++ '/' :: (s2' ++ renderRTok rest')).dropWhile (fun d => d ≠ '/') =
                '/' :: (s2' ++ renderRTok rest') := by
              rw [dropWhile_ne_slash_append nm _ hn1]
              simp [List.dropWhile]
            simp only [renderRTok, List.cons_append]
            rw [hd]
            simp only [List.isEmpty_cons, List.headD_cons, List.tail_cons, Bool.false_eq_true,
              if_false]
            rw [hIH']
            simp [renderRTokSub]

/-- C5: `Reverse(n, v1, ..., vk)` returns the found route's path pattern
with the i-th `:name` segment replaced by the i-th supplied value (for i
up to the number of supplied values) and every other byte — `/`
separators, `*` wildcards, literals — preserved unchanged; with no route
record named `n`, it returns the empty string. -/
theorem reverse_substitutes_params :
    (∀ (routes : List Route) (name : String) (ps : List String) (r : Route)
        (toks : List RTok),
      routes.find? (fun q => q.Name == name) = some r →
      r.Path.data = renderRTok toks →
      wfRTok toks →
      akitaReverse routes name ps = String.mk (renderRTokSub toks ps)) ∧
    (∀ (routes : List Route) (name : String) (ps : List String),
      routes.find? (fun q => q.Name == name) = none →
      akitaReverse routes name ps = "") := by
  constructor
  · intro routes name ps r toks hfind hpath hwf
    unfold akitaReverse
    rw [hfind]
    show String.mk (revPath r.Path.data ps) = String.mk (renderRTokSub toks ps)
    rw [hpath, revPath_render toks ps hwf]
  · intro routes name ps hfind
    unfold akitaReverse
    rw [hfind]

/-- C5 (witness): a pattern with a param and a `*` wildcard rewritten at
a concrete value, and the empty result for an unknown name. -/
theorem reverse_substitutes_params_witness :
    akitaReverse [{ Method := "GET", Path := "/users/:id/files/*", Name := "u" }]
      "u" ["7"] = "/users/7/files/*" ∧
    akitaReverse [{ Method := "GET", Path := "/users/:id", Name := "u" }]
      "nope" ["7"] = "" := by
  constructor
  · have h := reverse_substitutes_params.1
      [{ Method := "GET", Path := "/users/:id/files/*", Name := "u" }] "u" ["7"]
      { Method := "GET", Path := "/users/:id/files/*", Name := "u" }
      [.lit "/users/".data, .par "id".data, .lit "/files/*".data]
      (by decide) (by decide)
      (by simp only [wfRTok, nextAfterPar]; decide)
    exact h.trans (by decide)
  · exact reverse_substitutes_params.2 _ "nope" ["7"] (by decide)

/-! ### C10: no path traversal out of the static root. -/

lemma splitCh_ne_nil (sep : Char) : ∀ cs : List Char, splitCh sep cs ≠ [] := by
  intro cs
  induction cs with
  | nil => simp [splitCh]
  | cons c rest ih =>
    simp only [splitCh]
    split
    · simp
    · split
      · simp
      · simp

lemma splitCh_append (sep : Char) :
    ∀ xs ys : List Char,
      splitCh sep (xs ++ sep :: ys) = splitCh sep xs ++ splitCh sep ys := by
  intro xs ys
  induction xs with
  | nil => simp [splitCh]
  | cons c xs' ih =>
    by_cases hc : c = sep
    · subst hc
      simp [splitCh, ih]
    · cases h : splitCh sep xs' with
      | nil => exact absurd h (splitCh_ne_nil sep xs')
      | cons s ss =>
        simp only [List.cons_append, splitCh, if_neg hc]
        have ih2 : splitCh sep (xs'.append (sep :: ys)) =
            splitCh sep xs' ++ splitCh sep ys := ih
        rw [ih2, h]
        simp [List.cons_append]

lemma not_mem_splitCh (sep : Char) :
    ∀ (cs : List Char) (sg : List Char), sg ∈ splitCh sep cs → sep ∉ sg := by
  intro cs
  induction cs with
  | nil =>
    intro sg hsg
    simp only [splitCh, List.mem_singleton] at hsg
    subst hsg
    simp
  | cons c rest ih =>
    intro sg hsg
    by_cases hc : c = sep
    · subst hc
      simp only [splitCh, eq_self_iff_true, if_true, List.mem_cons] at hsg
      rcases hsg with h | h
      · subst h; simp
      · exact ih sg h
    · cases h : splitCh sep rest with
      | nil => exact absurd h (splitCh_ne_nil sep rest)
      | cons s ss =>
        simp only [splitCh, if_neg hc, h, List.mem_cons] at hsg
        rcases hsg with h' | h'
        · subst h'
          have hs : sep ∉ s := ih s (by rw [h]; exact List.mem_cons_self _ _)
          simp only [List.mem_cons, not_or]
          exact ⟨fun he => hc he.symm, hs⟩
        · exact ih sg (by rw [h]; exact List.mem_cons_of_mem _ h')

lemma splitCh_single (sep : Char) :
    ∀ x : List Char, sep ∉ x → splitCh sep x = [x] := by
  intro x
  induction x with
  | nil => intro _; rfl
  | cons c x' ih =>
    intro hx
    simp only [List.mem_cons, not_or] at hx
    simp only [splitCh, if_neg (Ne.symm hx.1), ih hx.2]

lemma splitSlash_joinSegs :
    ∀ L : List (List Char), (∀ sg ∈ L, '/' ∉ sg) → L ≠ [] →
      splitSlash (joinSegs L) = L := by
  intro L
  induction L with
  | nil => intro _ h; exact absurd rfl h
  | cons s L' ih =>
    intro hL _
    cases L' with
    | nil =>
      simp only [joinSegs, splitSlash]
      exact splitCh_single '/' s (hL s (by simp))
    | cons s2 L'' =>
      have hjoin : joinSegs (s :: s2 :: L'') = s ++ '/' :: joinSegs (s2 :: L'') := rfl
      rw [hjoin]
      show splitCh '/' (s ++ '/' :: joinSegs (s2 :: L'')) = s :: s2 :: L''
      rw [splitCh_append]
      rw [show splitCh '/' s = [s] from splitCh_single '/' s (hL s (by simp))]
      rw [show (splitCh '/' (joinSegs (s2 :: L'')) : List (List Char)) = s2 :: L'' from
        ih (fun sg hsg => hL sg (List.mem_cons_of_mem _ hsg)) (by simp)]
      rfl

/-- The elements a rooted clean keeps: nonempty, not `.`, not `..`, and
free of `/`. -/
def goodSeg (sg : List Char) : Prop :=
  sg ≠ [] ∧ sg ≠ dotSeg ∧ sg ≠ ddSeg ∧ '/' ∉ sg

lemma stepSeg_true_good (st : List (List Char)) (sg : List Char)
    (hst : ∀ x ∈ st, goodSeg x) (hsg : '/' ∉ sg) :
    ∀ x ∈ stepSeg true st sg, goodSeg x := by
  intro x hx
  unfold stepSeg at hx
  by_cases h1 : sg = [] ∨ sg = dotSeg
  · rw [if_pos h1] at hx
    exact hst x hx
  · rw [if_neg h1] at hx
    by_cases h2 : sg = ddSeg
    · rw [if_pos h2] at hx
      cases st with
      | nil => simp at hx
      | cons top rest =>
        have htop : top ≠ ddSeg := (hst top (by simp)).2.2.1
        simp only [if_neg htop] at hx
        exact hst x (List.mem_cons_of_mem _ hx)
    · rw [if_neg h2] at hx
      rcases List.mem_cons.mp hx with h | h
      · subst h
        push_neg at h1
        exact ⟨h1.1, h1.2, h2, hsg⟩
      · exact hst x h

lemma foldl_stepSeg_true_good :
    ∀ (segs : List (List Char)) (st : List (List Char)),
      (∀ sg ∈ segs, '/' ∉ sg) → (∀ x ∈ st, goodSeg x) →
      ∀ x ∈ segs.foldl (stepSeg true) st, goodSeg x := by
  intro segs
  induction segs with
  | nil => intro st _ hst; exact hst
  | cons sg segs' ih =>
    intro st hsegs hst
    simp only [List.foldl_cons]
    exact ih (stepSeg true st sg)
      (fun z hz => hsegs z (List.mem_cons_of_mem _ hz))
      (stepSeg_true_good st sg hst (hsegs sg (by simp)))

lemma cleanSegs_true_good (segs : List (List Char))
    (hsegs : ∀ sg ∈ segs, '/' ∉ sg) :
    ∀ x ∈ cleanSegs true segs, goodSeg x :=
  foldl_stepSeg_true_good segs [] hsegs (by simp)

def keepSeg (sg : List Char) : Bool :=
  decide (¬(sg = [] ∨ sg = dotSeg))

lemma foldl_stepSeg_push (r : Bool) :
    ∀ (L : List (List Char)) (st : List (List Char)),
      (∀ sg ∈ L, sg ≠ ddSeg) →
      L.foldl (stepSeg r) st = (L.filter keepSeg).reverse ++ st := by
  intro L
  induction L with
  | nil => intro st _; simp
  | cons sg L' ih =>
    intro st hL
    have hsg : sg ≠ ddSeg := hL sg (by simp)
    simp only [List.foldl_cons]
    rw [ih (stepSeg r st sg) (fun z hz => hL z (List.mem_cons_of_mem _ hz))]
    by_cases h1 : sg = [] ∨ sg = dotSeg
    · have hk : keepSeg sg = false := by simp [keepSeg, h1]
      rw [show stepSeg r st sg = st by unfold stepSeg; rw [if_pos h1]]
      simp [List.filter_cons, hk]
    · have hk : keepSeg sg = true := by simp [keepSeg]; push_neg at h1; exact h1
      rw [show stepSeg r st sg = sg :: st by
        unfold stepSeg; rw [if_neg h1, if_neg hsg]]
      simp [List.filter_cons, hk]

lemma cleanSegs_append (r : Bool) (A B : List (List Char)) :
    cleanSegs r (A ++ B) = B.foldl (stepSeg r) (cleanSegs r A) := by
  unfold cleanSegs
  rw [List.foldl_append]

/-- C10: the name the static-file handler serves never escapes the root:
`path.Clean("/"+p)` retains no `..` segment, and the joined path is
exactly the cleaned root extended below by those cleaned, `..`-free
segments — for every captured wildcard value `p`, including ones with
`/` or `..` inside. -/
theorem static_file_stays_within_root :
    ∀ (root p : List Char), root ≠ [] →
      ddSeg ∉ cleanSegs true (splitSlash ('/' :: p)) ∧
      staticFileName root p =
        renderClean (isRooted root)
          (cleanSegs true (splitSlash ('/' :: p)) ++
            cleanSegs (isRooted root) (splitSlash root)) := by
  intro root p hroot
  have hsl : ∀ sg ∈ splitSlash ('/' :: p), '/' ∉ sg :=
    fun sg hsg => not_mem_splitCh '/' _ sg hsg
  have hgood : ∀ x ∈ cleanSegs true (splitSlash ('/' :: p)), goodSeg x :=
    cleanSegs_true_good _ hsl
  have hdd : ddSeg ∉ cleanSegs true (splitSlash ('/' :: p)) := by
    intro hmem
    exact (hgood ddSeg hmem).2.2.1 rfl
  refine ⟨hdd, ?_⟩
  set st := cleanSegs true (splitSlash ('/' :: p)) with hst_def
  have hrootP : isRooted ('/' :: p) = true := by simp [isRooted]
  have hq : goClean ('/' :: p) = '/' :: joinSegs st.reverse := by
    unfold goClean
    rw [if_neg (by simp), hrootP]
    rfl
  have hq_ne : goClean ('/' :: p) ≠ [] := by rw [hq]; simp
  have hjoin : staticFileName root p = goClean (root ++ '/' :: goClean ('/' :: p)) := by
    unfold staticFileName goJoin
    rw [if_neg (by simp [hroot]), if_neg hroot, if_neg hq_ne]
  rw [hjoin, hq]
  unfold goClean
  rw [if_neg (by simp [hroot])]
  have hir : isRooted (root ++ '/' :: '/' :: joinSegs st.reverse) = isRooted root := by
    cases root with
    | nil => exact absurd rfl hroot
    | cons a r' => simp [isRooted]
  rw [hir]
  have hsplit : splitSlash (root ++ '/' :: ('/' :: joinSegs st.reverse)) =
      splitSlash root ++ splitSlash ('/' :: joinSegs st.reverse) :=
    splitCh_append '/' root _
  rw [hsplit]
  have hsplit2 : splitSlash ('/' :: joinSegs st.reverse) =
      [] :: splitSlash (joinSegs st.reverse) := by
    show splitCh '/' _ = _
    simp only [splitCh, if_pos]
    rfl
  rw [hsplit2, cleanSegs_append]
  have hgoodmem : ∀ x ∈ st, goodSeg x := fun x hx => hgood x hx
  have hnodd : ∀ sg ∈ ([] :: splitSlash (joinSegs st.reverse) : List (List Char)),
      sg ≠ ddSeg := by
    intro sg hsg
    rcases List.mem_cons.mp hsg with h | h
    · subst h; simp [ddSeg]
    · by_cases hstnil : st = []
      · rw [hstnil] at h
        simp only [List.reverse_nil, joinSegs] at h
        have : sg ∈ splitSlash ([] : List Char) := h
        simp only [splitSlash, splitCh, List.mem_singleton] at this
        subst this
        simp [ddSeg]
      · rw [splitSlash_joinSegs st.reverse
            (fun z hz => (hgoodmem z (List.mem_reverse.mp hz)).2.2.2)
            (by simpa using hstnil)] at h
        exact (hgoodmem sg (List.mem_reverse.mp h)).2.2.1
  rw [foldl_stepSeg_push (isRooted root) _ _ hnodd]
  have hfilter : (([] :: splitSlash (joinSegs st.reverse)).filter keepSeg) = st.reverse := by
    by_cases hstnil : st = []
    · rw [hstnil]
      simp only [List.reverse_nil, joinSegs]
      show ([] :: splitSlash ([] : List Char)).filter keepSeg = []
      simp [splitSlash, splitCh, keepSeg, List.filter_cons]
    · rw [splitSlash_joinSegs st.reverse
          (fun z hz => (hgoodmem z (List.mem_reverse.mp hz)).2.2.2)
          (by simpa using hstnil)]
      rw [List.filter_cons]
      rw [show keepSeg ([] : List Char) = false from by simp [keepSeg]]
      simp only [Bool.false_eq_true, if_false]
      exact List.filter_eq_self.mpr
        (fun z hz => by
          have hg := hgoodmem z (List.mem_reverse.mp hz)
          simp [keepSeg, hg.1, hg.2.1])
  rw [hfilter, List.reverse_reverse]

/-- C10 (witness): a traversal attempt `../../etc/passwd` on root
`static` resolves inside the root. -/
theorem static_file_stays_within_root_witness :
    ddSeg ∉ cleanSegs true (splitSlash ('/' :: ("../../etc/passwd").data)) ∧
    staticFileName ("static").data ("../../etc/passwd").data =
      renderClean (isRooted ("static").data)
        (cleanSegs true (splitSlash ('/' :: ("../../etc/passwd").data)) ++
          cleanSegs (isRooted ("static").data) (splitSlash ("static").data)) :=
  static_file_stays_within_root ("static").data ("../../etc/passwd").data (by decide)

end Akita
